import Mathlib

/-!
# Verification of the veloren-mapgen conversion pipeline

This file shallowly embeds the four example programs of the repository
(`convert_to_bin.rs`, `convert_to_bin_s.rs`, `convert_heightmap.rs`,
`convert_all_heightmaps.rs`) and the binary map codec they rely on, and
proves properties of the embedding.

Modelling conventions:
* bytes are `Nat` values below 256, byte buffers are `List Nat`;
* machine integers (`u32`, `u64`) are `Nat` with explicit `% 2 ^ 32`
  (resp. bounds hypotheses) where overflow matters;
* `f64` values inside the binary codec are represented by their 64-bit
  bit patterns (`Nat` below `2 ^ 64`), since the codec only copies bytes
  and never computes with the floats;
* float arithmetic in the pixel pipeline is modelled exactly over `ℚ`
  (every concrete value appearing in the verified scenarios is exactly
  representable in binary floating point, so the rational results agree
  with the `f64`/`f32` results there);
* a Rust panic (out-of-bounds index, `expect` on an error) is modelled
  by `Option`/`Except` failure.
-/

namespace VelorenMapgen

/-! ## Little-endian byte encoding of fixed-width integers -/

/-- Encode `v` as `w` little-endian bytes (value taken mod `2 ^ (8 * w)`). -/
def natToLEBytes : Nat → Nat → List Nat
  | 0, _ => []
  | w + 1, v => v % 256 :: natToLEBytes w (v / 256)

/-- Decode a little-endian byte list back to a natural number. -/
def leBytesToNat : List Nat → Nat
  | [] => 0
  | b :: rest => b + 256 * leBytesToNat rest

theorem natToLEBytes_length (w v : Nat) : (natToLEBytes w v).length = w := by
  induction w generalizing v with
  | zero => rfl
  | succ w ih => simp [natToLEBytes, ih]

theorem leBytesToNat_natToLEBytes (w v : Nat) (h : v < 2 ^ (8 * w)) :
    leBytesToNat (natToLEBytes w v) = v := by
  induction w generalizing v with
  | zero =>
    simp only [Nat.mul_zero, pow_zero, Nat.lt_one_iff] at h
    simp [natToLEBytes, leBytesToNat, h]
  | succ w ih =>
    have hdiv : v / 256 < 2 ^ (8 * w) := by
      apply Nat.div_lt_of_lt_mul
      calc v < 2 ^ (8 * (w + 1)) := h
      _ = 2 ^ (8 * w) * 256 := by ring
      _ = 256 * 2 ^ (8 * w) := by ring
    simp only [natToLEBytes, leBytesToNat, ih (v / 256) hdiv]
    omega

/-! ## The binary map data model

Modelled from the spec: the `WorldMap_0_7_0` struct and `WorldFile` enum are
declared in the repository's `veloren_world::sim` module, whose source is not
under `src/`; their shape is taken from the spec's data model (section 3) and
the field names used by the callers in `src/world/examples/`. Float fields
are stored as their 64-bit IEEE bit patterns. -/

structure WorldMap_0_7_0 where
  map_size_lg : Nat × Nat
  continent_scale_hack : Nat
  alt : List Nat
  basement : List Nat
deriving DecidableEq

inductive WorldFile where
  | Veloren0_7_0 : WorldMap_0_7_0 → WorldFile
deriving DecidableEq

/-- Well-formedness of a `WorldFile`: every field fits its machine width
(`u32` components of `map_size_lg`, `f64` bit patterns, `u64` array lengths). -/
def WorldFile.WellFormed : WorldFile → Prop
  | .Veloren0_7_0 m =>
    m.map_size_lg.1 < 2 ^ 32 ∧ m.map_size_lg.2 < 2 ^ 32 ∧
    m.continent_scale_hack < 2 ^ 64 ∧
    m.alt.length < 2 ^ 64 ∧ (∀ x ∈ m.alt, x < 2 ^ 64) ∧
    m.basement.length < 2 ^ 64 ∧ (∀ x ∈ m.basement, x < 2 ^ 64)

/-! ## The binary map codec

Modelled from the spec: `bincode::serialize` / `bincode::deserialize` with the
crate's default (legacy, fixed-int, little-endian) configuration, applied to
the `WorldFile` enum.  The wire layout follows spec section 6: the enum
variant tag first (a `u32`), then `map_size_lg` as two `u32`s, then
`scale_metadata` as an `f64`, then the `surface` and `basement` arrays, each
as a `u64` length followed by that many `f64` values.  All integers are
little-endian. -/

inductive DeserializeError where
  | UnsupportedVersion
  | TruncatedData
deriving DecidableEq

/-- Serialize a `WorldFile` to bytes (variant tag, `map_size_lg` pair,
scale metadata, length-prefixed `alt` array, length-prefixed `basement`
array; fixed little-endian widths). -/
def serializeWorldFile : WorldFile → List Nat
  | .Veloren0_7_0 m =>
    natToLEBytes 4 0 ++
    (natToLEBytes 4 m.map_size_lg.1 ++
    (natToLEBytes 4 m.map_size_lg.2 ++
    (natToLEBytes 8 m.continent_scale_hack ++
    (natToLEBytes 8 m.alt.length ++
    ((m.alt.flatMap (natToLEBytes 8)) ++
    (natToLEBytes 8 m.basement.length ++
    (m.basement.flatMap (natToLEBytes 8))))))))

/-- Consume exactly `n` bytes from the front of the input, or fail with
`TruncatedData` when fewer remain. -/
def readBytes (n : Nat) (l : List Nat) :
    Except DeserializeError (List Nat × List Nat) :=
  if n ≤ l.length then .ok (l.take n, l.drop n) else .error .TruncatedData

/-- Read `n` consecutive 8-byte little-endian `f64` bit patterns. -/
def readElems : Nat → List Nat → Except DeserializeError (List Nat × List Nat)
  | 0, l => .ok ([], l)
  | n + 1, l =>
    match readBytes 8 l with
    | .error e => .error e
    | .ok (b, l1) =>
      match readElems n l1 with
      | .error e => .error e
      | .ok (xs, l2) => .ok (leBytesToNat b :: xs, l2)

/-- Deserialize a `WorldFile` from bytes: check the variant tag, then read
the fields in wire order.  An unknown tag fails with `UnsupportedVersion`;
running out of bytes fails with `TruncatedData`. -/
def deserializeWorldFile (l : List Nat) : Except DeserializeError WorldFile :=
  match readBytes 4 l with
  | .error e => .error e
  | .ok (tagB, l1) =>
    if leBytesToNat tagB = 0 then
      match readBytes 4 l1 with
      | .error e => .error e
      | .ok (xB, l2) =>
        match readBytes 4 l2 with
        | .error e => .error e
        | .ok (yB, l3) =>
          match readBytes 8 l3 with
          | .error e => .error e
          | .ok (csB, l4) =>
            match readBytes 8 l4 with
            | .error e => .error e
            | .ok (lenAB, l5) =>
              match readElems (leBytesToNat lenAB) l5 with
              | .error e => .error e
              | .ok (altL, l6) =>
                match readBytes 8 l6 with
                | .error e => .error e
                | .ok (lenBB, l7) =>
                  match readElems (leBytesToNat lenBB) l7 with
                  | .error e => .error e
                  | .ok (basL, _l8) =>
                    .ok (.Veloren0_7_0
                      { map_size_lg := (leBytesToNat xB, leBytesToNat yB)
                        continent_scale_hack := leBytesToNat csB
                        alt := altL
                        basement := basL })
    else .error .UnsupportedVersion

/-! ## Codec round-trip lemmas -/

theorem readBytes_append (n : Nat) (pre rest : List Nat) (h : pre.length = n) :
    readBytes n (pre ++ rest) = .ok (pre, rest) := by
  subst h
  simp [readBytes, List.take_left, List.drop_left]

theorem readElems_flatMap (xs rest : List Nat) (hx : ∀ x ∈ xs, x < 2 ^ 64) :
    readElems xs.length (xs.flatMap (natToLEBytes 8) ++ rest) = .ok (xs, rest) := by
  induction xs with
  | nil => simp [readElems]
  | cons a as ih =>
    have ha : a < 2 ^ 64 := hx a (List.mem_cons_self a as)
    have has : ∀ x ∈ as, x < 2 ^ 64 := fun x hxm => hx x (List.mem_cons_of_mem a hxm)
    simp only [List.length_cons, List.flatMap_cons, List.append_assoc, readElems]
    rw [readBytes_append 8 (natToLEBytes 8 a) _ (natToLEBytes_length 8 a)]
    simp only [ih has, leBytesToNat_natToLEBytes 8 a ha]

theorem readElems_short (n : Nat) (l : List Nat) (h : l.length < 8 * n) :
    readElems n l = .error .TruncatedData := by
  induction n generalizing l with
  | zero => omega
  | succ n ih =>
    by_cases h8 : 8 ≤ l.length
    · have : readBytes 8 l = .ok (l.take 8, l.drop 8) := by simp [readBytes, h8]
      simp only [readElems, this]
      rw [ih (l.drop 8) (by simp; omega)]
    · have : readBytes 8 l = .error .TruncatedData := by
        simp only [readBytes]
        rw [if_neg h8]
      simp only [readElems, this]

theorem readElems_flatMap_nil (xs : List Nat) (hx : ∀ x ∈ xs, x < 2 ^ 64) :
    readElems xs.length (xs.flatMap (natToLEBytes 8)) = .ok (xs, []) := by
  have := readElems_flatMap xs [] hx
  simpa using this

/-- C1: deserializing the serialization of any well-formed `WorldFile`
returns exactly that `WorldFile`, every integer and float (bit pattern)
field preserved; the wire order is tag, `map_size_lg` pair, scale metadata,
length-prefixed surface array, length-prefixed basement array. -/
theorem deserialize_serialize_roundTrip (wf : WorldFile) (h : wf.WellFormed) :
    deserializeWorldFile (serializeWorldFile wf) = .ok wf := by
  obtain ⟨⟨⟨x, y⟩, cs, alt, bas⟩⟩ := wf
  simp only [WorldFile.WellFormed] at h
  obtain ⟨hx, hy, hcs, hla, halt, hlb, hbas⟩ := h
  have e0 : leBytesToNat (natToLEBytes 4 0) = 0 :=
    leBytesToNat_natToLEBytes 4 0 (by norm_num)
  have ex := leBytesToNat_natToLEBytes 4 x hx
  have ey := leBytesToNat_natToLEBytes 4 y hy
  have ecs := leBytesToNat_natToLEBytes 8 cs hcs
  have ela := leBytesToNat_natToLEBytes 8 alt.length hla
  have elb := leBytesToNat_natToLEBytes 8 bas.length hlb
  have eA := readElems_flatMap alt
    (natToLEBytes 8 bas.length ++ bas.flatMap (natToLEBytes 8)) halt
  have eB := readElems_flatMap_nil bas hbas
  simp [serializeWorldFile, deserializeWorldFile, readBytes_append,
    natToLEBytes_length, e0, ex, ey, ecs, ela, elb, eA, eB]

/-- Witness for C1 at a concrete `WorldFile`. -/
theorem deserialize_serialize_roundTrip_witness :
    (WorldFile.Veloren0_7_0
      { map_size_lg := (1, 1), continent_scale_hack := 3,
        alt := [5, 6], basement := [7, 8] }).WellFormed ∧
    deserializeWorldFile (serializeWorldFile (WorldFile.Veloren0_7_0
      { map_size_lg := (1, 1), continent_scale_hack := 3,
        alt := [5, 6], basement := [7, 8] })) =
      .ok (WorldFile.Veloren0_7_0
      { map_size_lg := (1, 1), continent_scale_hack := 3,
        alt := [5, 6], basement := [7, 8] }) :=
  ⟨by constructor <;> norm_num [WorldFile.WellFormed],
   deserialize_serialize_roundTrip _
     (by constructor <;> norm_num [WorldFile.WellFormed])⟩

theorem flatMap_natToLEBytes_length (xs : List Nat) :
    (xs.flatMap (natToLEBytes 8)).length = 8 * xs.length := by
  induction xs with
  | nil => simp
  | cons a as ih => simp [natToLEBytes_length, ih]; ring

theorem take_append_of_le (n : Nat) (l1 l2 : List Nat) (h : l1.length ≤ n) :
    (l1 ++ l2).take n = l1 ++ l2.take (n - l1.length) := by
  rw [List.take_append_eq_append_take, List.take_of_length_le h]

/-- C3: truncating a serialized `WorldFile` inside either float array (after
its length prefix, before its last element's final byte) makes
deserialization fail with `TruncatedData`; no value is returned. -/
theorem deserialize_truncated_mid_array (m : WorldMap_0_7_0)
    (h : (WorldFile.Veloren0_7_0 m).WellFormed) (t : Nat)
    (ht : (28 ≤ t ∧ t < 28 + 8 * m.alt.length) ∨
          (36 + 8 * m.alt.length ≤ t ∧
           t < 36 + 8 * m.alt.length + 8 * m.basement.length)) :
    deserializeWorldFile ((serializeWorldFile (.Veloren0_7_0 m)).take t) =
      .error .TruncatedData := by
  obtain ⟨⟨x, y⟩, cs, alt, bas⟩ := m
  simp only [WorldFile.WellFormed] at h
  obtain ⟨hx, hy, hcs, hla, halt, hlb, hbas⟩ := h
  have e0 : leBytesToNat (natToLEBytes 4 0) = 0 :=
    leBytesToNat_natToLEBytes 4 0 (by norm_num)
  have ex := leBytesToNat_natToLEBytes 4 x hx
  have ey := leBytesToNat_natToLEBytes 4 y hy
  have ecs := leBytesToNat_natToLEBytes 8 cs hcs
  have ela := leBytesToNat_natToLEBytes 8 alt.length hla
  have elb := leBytesToNat_natToLEBytes 8 bas.length hlb
  have hsA := flatMap_natToLEBytes_length alt
  have hsB := flatMap_natToLEBytes_length bas
  simp only [serializeWorldFile] at *
  rcases ht with ⟨h1, h2⟩ | ⟨h1, h2⟩
  · rw [take_append_of_le t _ _ (by simp [natToLEBytes_length]; omega)]
    rw [take_append_of_le _ _ _ (by simp [natToLEBytes_length]; omega)]
    rw [take_append_of_le _ _ _ (by simp [natToLEBytes_length]; omega)]
    rw [take_append_of_le _ _ _ (by simp [natToLEBytes_length]; omega)]
    rw [take_append_of_le _ _ _ (by simp [natToLEBytes_length]; omega)]
    simp only [natToLEBytes_length]
    have eShort : readElems alt.length
        (((alt.flatMap (natToLEBytes 8)) ++
          (natToLEBytes 8 bas.length ++ bas.flatMap (natToLEBytes 8))).take
            (t - 4 - 4 - 4 - 8 - 8)) = .error .TruncatedData := by
      apply readElems_short
      simp [natToLEBytes_length, hsA, hsB]
      omega
    simp [deserializeWorldFile, readBytes_append, natToLEBytes_length,
      e0, ex, ey, ecs, ela, eShort]
  · rw [take_append_of_le t _ _ (by simp [natToLEBytes_length]; omega)]
    rw [take_append_of_le _ _ _ (by simp [natToLEBytes_length]; omega)]
    rw [take_append_of_le _ _ _ (by simp [natToLEBytes_length]; omega)]
    rw [take_append_of_le _ _ _ (by simp [natToLEBytes_length]; omega)]
    rw [take_append_of_le _ _ _ (by simp [natToLEBytes_length]; omega)]
    rw [take_append_of_le _ _ _ (by simp [natToLEBytes_length, hsA]; omega)]
    rw [take_append_of_le _ _ _ (by simp [natToLEBytes_length, hsA]; omega)]
    simp only [natToLEBytes_length, hsA]
    have eA := readElems_flatMap alt
      (natToLEBytes 8 bas.length ++
        (bas.flatMap (natToLEBytes 8)).take
          (t - 4 - 4 - 4 - 8 - 8 - 8 * alt.length - 8)) halt
    have eShort : readElems bas.length
        ((bas.flatMap (natToLEBytes 8)).take
          (t - 4 - 4 - 4 - 8 - 8 - 8 * alt.length - 8)) =
          .error .TruncatedData := by
      apply readElems_short
      simp [hsB]
      omega
    simp [deserializeWorldFile, readBytes_append, natToLEBytes_length,
      e0, ex, ey, ecs, ela, elb, eA, eShort]

/-- Witness for C3: a concrete serialized file cut inside its surface array. -/
theorem deserialize_truncated_mid_array_witness :
    deserializeWorldFile ((serializeWorldFile (.Veloren0_7_0
      { map_size_lg := (0, 0), continent_scale_hack := 0,
        alt := [1, 2], basement := [3, 4] })).take 30) =
      .error .TruncatedData :=
  deserialize_truncated_mid_array
    { map_size_lg := (0, 0), continent_scale_hack := 0,
      alt := [1, 2], basement := [3, 4] }
    (by constructor <;> norm_num [WorldFile.WellFormed])
    30 (by norm_num)

/-! ## Dimension validation

Embeds the validation sequence at the top of `main` in
`convert_to_bin.rs` (lines 33-53) and `convert_to_bin_s.rs` (lines 76-95):
square check, power-of-two check, exponent via `trailing_zeros`, and the
redundant pixel-count re-derivation in wrapping `u32` arithmetic.  The
`std::process::exit(1)` calls are modelled as typed errors. -/

inductive ValidationError where
  | NotSquare
  | NotPowerOfTwo
  | PixelCountMismatch
deriving DecidableEq

/-- Embeds `u32::trailing_zeros`: the number of trailing zero bits (32 for 0). -/
def trailingZeros (n : Nat) : Nat :=
  if h : n = 0 then 32
  else if n % 2 = 0 then trailingZeros (n / 2) + 1 else 0
decreasing_by exact Nat.div_lt_self (Nat.pos_of_ne_zero h) one_lt_two

/-- Embeds `u32::is_power_of_two`: the value is `2 ^ k` for some `k < 32`. -/
def u32IsPowerOfTwo (n : Nat) : Bool := decide (∃ k < 32, n = 2 ^ k)

/-- The re-derived pixel count `(1 << exponent) * (1 << exponent)` in
wrapping `u32` arithmetic. -/
def expectedPixels (exponent : Nat) : Nat :=
  ((1 <<< exponent) * (1 <<< exponent)) % 2 ^ 32

/-- The dimension checks of `main`: reject non-square images, reject
non-power-of-two side lengths, derive the exponent with `trailing_zeros`,
and cross-check the wrapped pixel count. -/
def validateDims (width height : Nat) : Except ValidationError Nat :=
  if width ≠ height then .error .NotSquare
  else if ¬ u32IsPowerOfTwo width then .error .NotPowerOfTwo
  else
    let exponent := trailingZeros width
    if (width * height) % 2 ^ 32 ≠ expectedPixels exponent then
      .error .PixelCountMismatch
    else .ok exponent

theorem trailingZeros_two_pow (k : Nat) : trailingZeros (2 ^ k) = k := by
  induction k with
  | zero => rw [trailingZeros]; norm_num
  | succ k ih =>
    rw [trailingZeros]
    have h2 : (2 : Nat) ^ (k + 1) ≠ 0 := by positivity
    have hmod : 2 ^ (k + 1) % 2 = 0 := by
      simp [Nat.pow_succ, Nat.mul_mod_left]
    have hdiv : 2 ^ (k + 1) / 2 = 2 ^ k := by
      rw [Nat.pow_succ, Nat.mul_div_cancel _ (by norm_num)]
    simp [h2, hmod, hdiv, ih]

/-- C4: dimension validation succeeds exactly on square power-of-two images,
returning the exponent `k` with `2 ^ k = width`; non-square pairs fail with
`NotSquare`, square non-power-of-two sides fail with `NotPowerOfTwo`, and in
particular 100×100 fails with `NotPowerOfTwo`. -/
theorem validateDims_cases (width height : Nat)
    (hw : width < 2 ^ 32) (hh : height < 2 ^ 32) :
    (width ≠ height → validateDims width height = .error .NotSquare) ∧
    (width = height → (∀ k, width ≠ 2 ^ k) →
      validateDims width height = .error .NotPowerOfTwo) ∧
    (∀ k, width = height → width = 2 ^ k →
      validateDims width height = .ok k ∧ 2 ^ k = width) ∧
    validateDims 100 100 = .error .NotPowerOfTwo := by
  refine ⟨?_, ?_, ?_, ?_⟩
  · intro hne
    simp [validateDims, hne]
  · intro he hnp
    have hfalse : u32IsPowerOfTwo width = false := by
      simp only [u32IsPowerOfTwo, decide_eq_false_iff_not]
      rintro ⟨k, _, hk⟩
      exact hnp k hk
    subst he
    simp [validateDims, hfalse]
  · intro k he hk
    subst he
    have hk32 : k < 32 := by
      by_contra hge
      push_neg at hge
      have : (2 : Nat) ^ 32 ≤ 2 ^ k := Nat.pow_le_pow_right (by norm_num) hge
      omega
    have hpow : u32IsPowerOfTwo width = true := by
      simp only [u32IsPowerOfTwo, decide_eq_true_eq]
      exact ⟨k, hk32, hk⟩
    have htz : trailingZeros width = k := by rw [hk, trailingZeros_two_pow]
    have hpix : (width * width) % 2 ^ 32 = expectedPixels (trailingZeros width) := by
      rw [htz, expectedPixels, Nat.shiftLeft_eq, hk]
      norm_num
    refine ⟨?_, hk.symm⟩
    rw [htz] at hpix
    norm_num at hpix
    simp [validateDims, hpow, hpix, htz]
  · rfl

/-- Witness for C4 at 4×4 (success), 4×2 (`NotSquare`) and 100×100. -/
theorem validateDims_cases_witness :
    validateDims 4 4 = .ok 2 ∧ validateDims 4 2 = .error .NotSquare ∧
    validateDims 100 100 = .error .NotPowerOfTwo := by
  have h1 := validateDims_cases 4 4 (by norm_num) (by norm_num)
  have h2 := validateDims_cases 4 2 (by norm_num) (by norm_num)
  exact ⟨(h1.2.2.1 2 rfl (by norm_num)).1, h2.1 (by norm_num), h1.2.2.2⟩

/-- C5: once the square and power-of-two checks pass, the redundant
pixel-count check never fires: the wrapped re-derived pixel count equals the
wrapped `width * height`, even when the product overflows `u32`
(`width ≥ 2 ^ 16`), so validation never fails with `PixelCountMismatch`. -/
theorem pixel_check_redundant (width k : Nat) (hw : width < 2 ^ 32)
    (hk : width = 2 ^ k) :
    expectedPixels (trailingZeros width) = (width * width) % 2 ^ 32 ∧
    validateDims width width ≠ .error .PixelCountMismatch := by
  have hk32 : k < 32 := by
    by_contra hge
    push_neg at hge
    have : (2 : Nat) ^ 32 ≤ 2 ^ k := Nat.pow_le_pow_right (by norm_num) hge
    omega
  have htz : trailingZeros width = k := by rw [hk, trailingZeros_two_pow]
  have hpix : expectedPixels (trailingZeros width) = (width * width) % 2 ^ 32 := by
    rw [htz, expectedPixels, Nat.shiftLeft_eq, hk]
    norm_num
  have hpow : u32IsPowerOfTwo width = true := by
    simp only [u32IsPowerOfTwo, decide_eq_true_eq]
    exact ⟨k, hk32, hk⟩
  refine ⟨hpix, ?_⟩
  rw [htz] at hpix
  norm_num at hpix
  simp [validateDims, hpow, hpix, htz]

/-- Witness for C5 at width 65536 = 2^16, where the pixel product wraps. -/
theorem pixel_check_redundant_witness :
    expectedPixels (trailingZeros 65536) = (65536 * 65536) % 2 ^ 32 ∧
    validateDims 65536 65536 ≠ .error .PixelCountMismatch :=
  pixel_check_redundant 65536 16 (by norm_num) (by norm_num)

/-! ## The altitude pipeline over exact rationals

Float (`f64`/`f32`) arithmetic of the pixel pipeline is modelled exactly
over `ℚ`; every concrete value in the verified scenarios is exactly
representable in binary floating point, so the rational and float results
coincide there. -/

/-- One pack-direction sample: `altitude = (pixel / 255.0) * scale_factor + bias`
(`convert_to_bin.rs` line 64, `convert_to_bin_s.rs` line 101). -/
def altitudeOfSample (r scale_factor bias : ℚ) : ℚ :=
  (r / 255) * scale_factor + bias

/-- The altitude vector built from the red channel of each pixel in image
order. -/
def altVec (pixels : List Nat) (scale_factor bias : ℚ) : List ℚ :=
  pixels.map (fun p => altitudeOfSample (Nat.cast p) scale_factor bias)

/-- The 3×3 kernel offsets `(dy, dx)` in the iteration order of
`smooth_altitudes`. -/
def kernelOffsets : List (Int × Int) :=
  [(-1, -1), (-1, 0), (-1, 1), (0, -1), (0, 0), (0, 1), (1, -1), (1, 0), (1, 1)]

/-- Whether the neighbor at offset `(dy, dx)` from cell `(x, y)` lies inside
the `width × height` grid (the bounds test of `smooth_altitudes`). -/
def inBounds (w h x y : Nat) (d : Int × Int) : Bool :=
  decide (0 ≤ (x : Int) + d.2 ∧ 0 ≤ (y : Int) + d.1 ∧
    (x : Int) + d.2 < (w : Int) ∧ (y : Int) + d.1 < (h : Int))

/-- The smoothed value of cell `(x, y)`: sum of the in-bounds cells of its
3×3 neighborhood divided by the count of in-bounds contributors. -/
def smoothCell (alt : List ℚ) (w h x y : Nat) : ℚ :=
  let contrib := kernelOffsets.filter (inBounds w h x y)
  (contrib.map (fun d =>
    alt.getD ((((y : Int) + d.1).toNat) * w + (((x : Int) + d.2).toNat)) 0)).sum /
  (contrib.length : ℚ)

/-- One box-filter pass (`smooth_altitudes` in `convert_to_bin_s.rs`): the
output starts as a copy of the input and every cell of the `width × height`
grid is overwritten with its 3×3 in-bounds mean, reading only from the
input. -/
def smooth_altitudes (alt : List ℚ) (width height : Nat) : List ℚ :=
  alt.mapIdx (fun i a =>
    if i < height * width then
      smoothCell alt width height (i % width) (i / width)
    else a)

/-- Rational-valued view of the world map assembled by the pack programs. -/
structure WorldMapQ where
  map_size_lg : Nat × Nat
  continent_scale_hack : ℚ
  alt : List ℚ
  basement : List ℚ
deriving DecidableEq

/-- Rational-valued view of the `WorldFile` envelope built by the pack
programs. -/
inductive WorldFileQ where
  | Veloren0_7_0 : WorldMapQ → WorldFileQ
deriving DecidableEq

/-- The pack run of `convert_to_bin.rs` `main` after image decoding:
validate the dimensions, build the altitude vector with the fixed bias
−600 (`ALTITUDE_BIAS`), duplicate it into the basement, and assemble the
map with the hardcoded `continent_scale = 1.6`. -/
def convert_to_bin_main (width height : Nat) (pixels : List Nat)
    (scale_factor : ℚ) : Except ValidationError WorldFileQ :=
  match validateDims width height with
  | .error e => .error e
  | .ok exponent =>
    let alt_vec := altVec pixels scale_factor (-600)
    .ok (.Veloren0_7_0
      { map_size_lg := (exponent, exponent)
        continent_scale_hack := 1.6
        alt := alt_vec
        basement := alt_vec })

/-- The pack run of `convert_to_bin_s.rs` `main`: same shape, with the CLI
height offset as bias, one smoothing pass, and the hardcoded
`continent_scale = 1.5`. -/
def convert_to_bin_s_main (width height : Nat) (pixels : List Nat)
    (scale_factor height_offset : ℚ) : Except ValidationError WorldFileQ :=
  match validateDims width height with
  | .error e => .error e
  | .ok exponent =>
    let alt_sm := smooth_altitudes (altVec pixels scale_factor height_offset)
      width height
    .ok (.Veloren0_7_0
      { map_size_lg := (exponent, exponent)
        continent_scale_hack := 1.5
        alt := alt_sm
        basement := alt_sm })

/-! ## The unpack direction (`convert_heightmap.rs`, `convert_all_heightmaps.rs`) -/

/-- The value `f32::MAX` as an exact rational. -/
def f32MAX : ℚ := (2 ^ 24 - 1) * 2 ^ 104

/-- The value `f32::MIN` as an exact rational. -/
def f32MIN : ℚ := -f32MAX

/-- Embeds `compute_min_max`: a single linear scan starting from
`(f32::MAX, f32::MIN)`, tightening the pair at each element. -/
def compute_min_max (alt : List ℚ) : ℚ × ℚ :=
  alt.foldl (fun mm val =>
    (if val < mm.1 then val else mm.1, if mm.2 < val then val else mm.2))
    (f32MAX, f32MIN)

/-- Embeds `f32::round`: round to nearest, ties away from zero. -/
def roundQ (q : ℚ) : Int :=
  if q < 0 then -(⌊-q + 1 / 2⌋) else ⌊q + 1 / 2⌋

/-- Rust's saturating float-to-`u8` cast (`as u8`). -/
def u8Saturate (i : Int) : Nat :=
  if i < 0 then 0 else if 255 < i then 255 else i.toNat

/-- One output pixel of `generate_heightmap`:
`(((alt - min) / range) * 255.0).round() as u8`. -/
def pixelValue (a minv range : ℚ) : Nat :=
  u8Saturate (roundQ (((a - minv) / range) * 255))

/-- Sequence a list of optional values, failing if any is `none`. -/
def optTraverse {α : Type} : List (Option α) → Option (List α)
  | [] => some []
  | none :: _ => none
  | some a :: rest =>
    match optTraverse rest with
    | some l => some (a :: l)
    | none => none

/-- Embeds `generate_heightmap` (identical in `convert_heightmap.rs` and
`convert_all_heightmaps.rs`): with `range = max − min` (replaced by 1 when
exactly 0), read `alt_array[y * width + x]` for every pixel of a
`width × height` image and map it to an 8-bit value; the out-of-bounds
panic of the indexing is modelled as `none`.  The returned list holds the
gray sample of each pixel (the source replicates it into all three RGB
channels). -/
def generate_heightmap (alt : List ℚ) (width height : Nat) (minv maxv : ℚ) :
    Option (List Nat) :=
  let range := maxv - minv
  let range := if range = 0 then 1 else range
  optTraverse ((List.range (height * width)).map (fun i =>
    (alt[i]?).map (fun a => pixelValue a minv range)))

/-- The render dimensions used by `main` in both unpack programs: the
constants 1024 × 1024, taken from no field of the deserialized file. -/
def mainRenderDims : Nat × Nat := (1024, 1024)

/-! ## PNG encoder configuration -/

/-- The compression level options of the PNG encoder (image crate). -/
inductive CompressionType where
  | Default
  | Fast
  | Best
deriving DecidableEq

/-- The per-row filter options of the PNG encoder (image crate).
`Adaptive` chooses a filter per row; every other variant applies that one
fixed filter to all rows. -/
inductive FilterType where
  | NoFilter
  | Sub
  | Up
  | Avg
  | Paeth
  | Adaptive
deriving DecidableEq

/-- The configuration passed to `PngEncoder::new_with_quality` by
`generate_heightmap` in both unpack programs. -/
def png_encoder_config : CompressionType × FilterType :=
  (CompressionType.Best, FilterType.Paeth)

/-! ## Pack-direction theorems -/

/-- C6: the pack-direction mapping sends each sample to
`(s / 255) * scale_factor + bias`; in particular the 2×2 raster with red
channel `[0, 255, 0, 255]` under scale factor 1000 and bias −600 yields
the altitudes `[−600, 400, −600, 400]`. -/
theorem pack_altitude_formula (pixels : List Nat) (sf bias : ℚ) (i : Nat)
    (hi : i < pixels.length) :
    (altVec pixels sf bias).getD i 0 =
      ((pixels.getD i 0 : ℚ) / 255) * sf + bias ∧
    altVec [0, 255, 0, 255] 1000 (-600) = [-600, 400, -600, 400] := by
  constructor
  · have h388 : i < (altVec pixels sf bias).length := by
      rw [altVec, List.length_map]
      exact hi
    rw [List.getD_eq_getElem _ _ h388, List.getD_eq_getElem _ _ hi]
    simp only [altVec, List.getElem_map]
    rfl
  · norm_num [altVec, altitudeOfSample]

/-- Witness for C6 at the first pixel of the 2×2 scenario raster. -/
theorem pack_altitude_formula_witness :
    0 < ([0, 255, 0, 255] : List Nat).length ∧
    ((altVec [0, 255, 0, 255] 1000 (-600)).getD 0 0 =
      ((([0, 255, 0, 255] : List Nat).getD 0 0 : ℚ) / 255) * 1000 + (-600) ∧
    altVec [0, 255, 0, 255] 1000 (-600) = [-600, 400, -600, 400]) :=
  ⟨by decide, pack_altitude_formula [0, 255, 0, 255] 1000 (-600) 0 (by decide)⟩

/-- Helper: a square power-of-two side passes every dimension check. -/
theorem validateDims_pow_ok (width k : Nat) (hk : width = 2 ^ k)
    (hk32 : k < 32) :
    validateDims width width = .ok k := by
  have hpow : u32IsPowerOfTwo width = true := by
    simp only [u32IsPowerOfTwo, decide_eq_true_eq]
    exact ⟨k, hk32, hk⟩
  have htz : trailingZeros width = k := by rw [hk, trailingZeros_two_pow]
  have hpix : (width * width) % 2 ^ 32 = expectedPixels k := by
    rw [expectedPixels, Nat.shiftLeft_eq, hk]
    norm_num
  norm_num at hpix
  simp [validateDims, hpow, htz, hpix]

/-- C2 (amended): every successful pack run stores the hardcoded continent
scale constant in the scale-metadata field — 8/5 in `convert_to_bin`, 3/2
in `convert_to_bin_s`, never the CLI scale factor — and the validator's
exponent in both components of `map_size_lg`. -/
theorem pack_stores_hardcoded_scale (width height : Nat) (pixels : List Nat)
    (sf off : ℚ) (n : Nat) (hok : validateDims width height = .ok n) :
    (∃ m, convert_to_bin_main width height pixels sf = .ok (.Veloren0_7_0 m) ∧
      m.continent_scale_hack = 8 / 5 ∧ m.map_size_lg = (n, n)) ∧
    (∃ m, convert_to_bin_s_main width height pixels sf off =
        .ok (.Veloren0_7_0 m) ∧
      m.continent_scale_hack = 3 / 2 ∧ m.map_size_lg = (n, n)) := by
  constructor
  · refine ⟨⟨(n, n), 1.6, altVec pixels sf (-600), altVec pixels sf (-600)⟩,
      ?_, by norm_num, rfl⟩
    simp [convert_to_bin_main, hok]
  · refine ⟨⟨(n, n), 1.5, smooth_altitudes (altVec pixels sf off) width height,
      smooth_altitudes (altVec pixels sf off) width height⟩,
      ?_, by norm_num, rfl⟩
    simp [convert_to_bin_s_main, hok]

/-- Witness for C2 (amended) on a 1×1 image. -/
theorem pack_stores_hardcoded_scale_witness :
    (∃ m, convert_to_bin_main 1 1 [0] 7 = .ok (.Veloren0_7_0 m) ∧
      m.continent_scale_hack = 8 / 5 ∧ m.map_size_lg = (0, 0)) ∧
    (∃ m, convert_to_bin_s_main 1 1 [0] 7 3 = .ok (.Veloren0_7_0 m) ∧
      m.continent_scale_hack = 3 / 2 ∧ m.map_size_lg = (0, 0)) :=
  pack_stores_hardcoded_scale 1 1 [0] 7 3 0
    (validateDims_pow_ok 1 0 (by norm_num) (by norm_num))

/-- C2 counterexample: the pack run of `convert_to_bin` with CLI scale
factor 2 on a 1×1 black image succeeds and stores 8/5 — not the CLI value
2 — in the scale-metadata field. -/
theorem pack_scale_counterexample :
    convert_to_bin_main 1 1 [0] 2 = .ok (.Veloren0_7_0
      { map_size_lg := (0, 0), continent_scale_hack := 8 / 5,
        alt := [-600], basement := [-600] }) ∧
    (8 / 5 : ℚ) ≠ 2 := by
  have h : validateDims 1 1 = .ok 0 :=
    validateDims_pow_ok 1 0 (by norm_num) (by norm_num)
  refine ⟨?_, by norm_num⟩
  simp only [convert_to_bin_main, h]
  norm_num [altVec, altitudeOfSample]

/-! ## Unpack-direction theorems -/

theorem optTraverse_eq_none {α : Type} (l : List (Option α)) (h : none ∈ l) :
    optTraverse l = none := by
  induction l with
  | nil => cases h
  | cons o rest ih =>
    cases o with
    | none => rfl
    | some a =>
      have hmem : none ∈ rest := by simpa using h
      simp [optTraverse, ih hmem]

theorem optTraverse_map_some {α β : Type} (l : List α) (g : α → β) :
    optTraverse (l.map (fun a => some (g a))) = some (l.map g) := by
  induction l with
  | nil => rfl
  | cons a as ih => simp [optTraverse, ih]

/-- C10: both unpack programs render with the hardcoded dimensions
1024×1024, taken from no field of the deserialized map; for every altitude
array shorter than 1024·1024 elements, `generate_heightmap` reads
`alt_array[y * width + x]` out of bounds and panics (modelled as `none`)
instead of returning an error value. -/
theorem generate_heightmap_oob (alt : List ℚ) (minv maxv : ℚ)
    (h : alt.length < 1024 * 1024) :
    mainRenderDims = (1024, 1024) ∧
    generate_heightmap alt 1024 1024 minv maxv = none := by
  refine ⟨rfl, ?_⟩
  simp only [generate_heightmap]
  apply optTraverse_eq_none
  refine List.mem_map.mpr ⟨alt.length, List.mem_range.mpr h, ?_⟩
  simp

/-- Witness for C10 on the empty altitude array. -/
theorem generate_heightmap_oob_witness :
    ([] : List ℚ).length < 1024 * 1024 ∧
    (mainRenderDims = (1024, 1024) ∧
     generate_heightmap [] 1024 1024 0 0 = none) :=
  ⟨by norm_num, generate_heightmap_oob [] 0 0 (by norm_num)⟩

/-- C9 counterexample: the per-row filter configured by the source is the
fixed Paeth filter, not the image crate's adaptive per-row mode. -/
theorem png_filter_not_adaptive :
    png_encoder_config.2 ≠ FilterType.Adaptive := by
  decide

/-- C9 (amended): the raster encoder is configured with best compression
and the fixed Paeth per-row filter — a lossless configuration. -/
theorem png_encoder_config_eq :
    png_encoder_config = (CompressionType.Best, FilterType.Paeth) := rfl

theorem minmax_foldl_stable (n : Nat) (v a b : ℚ) (ha : ¬ v < a)
    (hb : ¬ b < v) :
    (List.replicate n v).foldl
      (fun mm val =>
        (if val < mm.1 then val else mm.1, if mm.2 < val then val else mm.2))
      (a, b) = (a, b) := by
  induction n with
  | zero => rfl
  | succ n ih => simp [List.replicate_succ, ha, hb, ih]

theorem compute_min_max_replicate (n : Nat) (v : ℚ)
    (hmax : v < f32MAX) (hmin : f32MIN < v) :
    compute_min_max (List.replicate (n + 1) v) = (v, v) := by
  rw [compute_min_max, List.replicate_succ, List.foldl_cons]
  have h1 : (if v < f32MAX then v else f32MAX) = v := if_pos hmax
  have h2 : (if f32MIN < v then v else f32MIN) = v := if_pos hmin
  simp only [h1, h2]
  exact minmax_foldl_stable n v v v (lt_irrefl v) (lt_irrefl v)

/-- C7: with the observed minimum and maximum, `generate_heightmap` renders
every pixel as `round(((value − min) / range) · 255)` saturated to
[0, 255], where `range = max − min` is replaced by 1 when it is exactly 0;
and the 4×4 all-zero raster packed with scale factor 100 and bias −50,
unpacked with its observed range, yields an image whose 16 pixels all
equal 0. -/
theorem generate_heightmap_formula (alt : List ℚ) (w h : Nat)
    (minv maxv : ℚ) (hlen : alt.length = h * w) :
    (∃ img, generate_heightmap alt w h minv maxv = some img ∧
      img.length = h * w ∧
      ∀ i, i < h * w → img.getD i 0 =
        u8Saturate (roundQ (((alt.getD i 0 - minv) /
          (if maxv - minv = 0 then 1 else maxv - minv)) * 255))) ∧
    generate_heightmap (altVec (List.replicate 16 0) 100 (-50)) 4 4
      (compute_min_max (altVec (List.replicate 16 0) 100 (-50))).1
      (compute_min_max (altVec (List.replicate 16 0) 100 (-50))).2 =
      some (List.replicate 16 0) := by
  constructor
  · simp only [generate_heightmap]
    set r := if maxv - minv = 0 then 1 else maxv - minv with hr
    refine ⟨(List.range (h * w)).map
      (fun i => pixelValue (alt.getD i 0) minv r), ?_, by simp, ?_⟩
    · have hcongr : (List.range (h * w)).map
          (fun i => (alt[i]?).map (fun a => pixelValue a minv r)) =
          (List.range (h * w)).map
          (fun i => some (pixelValue (alt.getD i 0) minv r)) := by
        apply List.map_congr_left
        intro i hi
        have hilen : i < alt.length := by
          rw [hlen]
          exact List.mem_range.mp hi
        rw [List.getElem?_eq_getElem hilen, List.getD_eq_getElem _ _ hilen]
        rfl
      rw [hcongr, optTraverse_map_some]
    · intro i hi
      have hi2 : i < ((List.range (h * w)).map
          (fun i => pixelValue (alt.getD i 0) minv r)).length := by
        simpa using hi
      rw [List.getD_eq_getElem _ _ hi2]
      simp [List.getElem_map, pixelValue]
  · have h1 : altVec (List.replicate 16 0) 100 (-50) = List.replicate 16 (-50) := by
      rw [altVec, List.map_replicate]
      norm_num [altitudeOfSample]
    have h2 : compute_min_max (List.replicate 16 (-50 : ℚ)) = (-50, -50) := by
      have h16 : (16 : Nat) = 15 + 1 := by norm_num
      rw [h16]
      exact compute_min_max_replicate 15 (-50)
        (by norm_num [f32MAX]) (by norm_num [f32MIN, f32MAX])
    have hf : (⌊(0 : ℚ) + 1 / 2⌋ : Int) = 0 := by
      rw [Int.floor_eq_iff]
      constructor <;> norm_num
    have hpx : pixelValue (-50) (-50) 1 = 0 := by
      have h0 : (((-50 : ℚ) - (-50)) / 1) * 255 = 0 := by norm_num
      rw [pixelValue, h0, roundQ]
      rw [if_neg (by norm_num : ¬ (0 : ℚ) < 0), hf]
      rfl
    rw [h1, h2]
    simp only [generate_heightmap]
    rw [if_pos (by norm_num : (-50 : ℚ) - (-50) = 0)]
    have hcongr2 : (List.range (4 * 4)).map
        (fun i => ((List.replicate 16 (-50 : ℚ))[i]?).map
          (fun a => pixelValue a (-50) 1)) =
        (List.range (4 * 4)).map (fun _ => some 0) := by
      apply List.map_congr_left
      intro i hi
      have hi16 : i < 16 := by
        have := List.mem_range.mp hi
        omega
      rw [List.getElem?_replicate, if_pos hi16]
      simp [hpx]
    rw [hcongr2]
    decide

/-- Witness for C7 on a one-element grid (plus the 4×4 scenario). -/
theorem generate_heightmap_formula_witness :
    ([0] : List ℚ).length = 1 * 1 ∧
    ((∃ img, generate_heightmap [0] 1 1 0 0 = some img ∧
      img.length = 1 * 1 ∧
      ∀ i, i < 1 * 1 → img.getD i 0 =
        u8Saturate (roundQ (((([0] : List ℚ).getD i 0 - 0) /
          (if (0 : ℚ) - 0 = 0 then 1 else (0 : ℚ) - 0)) * 255))) ∧
    generate_heightmap (altVec (List.replicate 16 0) 100 (-50)) 4 4
      (compute_min_max (altVec (List.replicate 16 0) 100 (-50))).1
      (compute_min_max (altVec (List.replicate 16 0) 100 (-50))).2 =
      some (List.replicate 16 0)) :=
  ⟨by norm_num, generate_heightmap_formula [0] 1 1 0 0 (by norm_num)⟩

/-! ## Smoothing filter theorems -/

theorem kernel_center_mem (w h x y : Nat) (hx : x < w) (hy : y < h) :
    ((0, 0) : Int × Int) ∈ kernelOffsets.filter (inBounds w h x y) := by
  apply List.mem_filter.mpr
  refine ⟨by simp [kernelOffsets], ?_⟩
  simp only [inBounds, decide_eq_true_eq]
  refine ⟨by omega, by omega, by omega, by omega⟩

theorem smoothCell_replicate (w h x y : Nat) (v : ℚ) (hx : x < w)
    (hy : y < h) :
    smoothCell (List.replicate (w * h) v) w h x y = v := by
  rw [smoothCell]
  have hmap : ∀ d ∈ kernelOffsets.filter (inBounds w h x y),
      (List.replicate (w * h) v).getD
        ((((y : Int) + d.1).toNat) * w + (((x : Int) + d.2).toNat)) 0 = v := by
    intro d hd
    have hb := (List.mem_filter.mp hd).2
    simp only [inBounds, decide_eq_true_eq] at hb
    obtain ⟨h1, h2, h3, h4⟩ := hb
    have hnx : (((x : Int) + d.2).toNat) < w := by omega
    have hny : (((y : Int) + d.1).toNat) < h := by omega
    have hidx : (((y : Int) + d.1).toNat) * w + (((x : Int) + d.2).toNat) <
        w * h := by
      calc (((y : Int) + d.1).toNat) * w + (((x : Int) + d.2).toNat)
          < (((y : Int) + d.1).toNat) * w + w := Nat.add_lt_add_left hnx _
        _ = ((((y : Int) + d.1).toNat) + 1) * w := by ring
        _ ≤ h * w := mul_le_mul_right' (by omega) w
        _ = w * h := Nat.mul_comm h w
    rw [List.getD_eq_getElem _ _ (by simpa using hidx), List.getElem_replicate]
  rw [List.map_congr_left hmap, List.map_const', List.sum_replicate,
    nsmul_eq_mul]
  have hpos : 0 < (kernelOffsets.filter (inBounds w h x y)).length :=
    List.length_pos_of_mem (kernel_center_mem w h x y hx hy)
  have hne : ((kernelOffsets.filter (inBounds w h x y)).length : ℚ) ≠ 0 := by
    exact_mod_cast Nat.pos_iff_ne_zero.mp hpos
  exact mul_div_cancel_left₀ v hne

/-- C8: one smoothing pass returns a fresh grid of length `width · height`
(the input list is untouched — the embedding is a pure function of it);
each cell of the output is the sum of the in-bounds cells of its 3×3
neighborhood divided by the number of in-bounds contributors (no
wraparound, no padding); and a perfectly flat grid of value `v` smooths to
itself. -/
theorem smooth_altitudes_spec (alt : List ℚ) (w h : Nat) (v : ℚ)
    (hlen : alt.length = w * h) :
    (smooth_altitudes alt w h).length = w * h ∧
    (∀ x y, x < w → y < h →
      (smooth_altitudes alt w h).getD (y * w + x) 0 =
        ((kernelOffsets.filter (inBounds w h x y)).map (fun d =>
          alt.getD ((((y : Int) + d.1).toNat) * w +
            (((x : Int) + d.2).toNat)) 0)).sum /
        ((kernelOffsets.filter (inBounds w h x y)).length : ℚ)) ∧
    (alt = List.replicate (w * h) v →
      smooth_altitudes alt w h = List.replicate (w * h) v) := by
  have hsl : (smooth_altitudes alt w h).length = alt.length := by
    simp [smooth_altitudes]
  refine ⟨by rw [hsl, hlen], ?_, ?_⟩
  · intro x y hx hy
    have hcomm : w * h = h * w := Nat.mul_comm w h
    have hidx : y * w + x < alt.length := by
      rw [hlen]
      calc y * w + x < y * w + w := by omega
        _ = (y + 1) * w := by ring
        _ ≤ h * w := mul_le_mul_right' (by omega) w
        _ = w * h := Nat.mul_comm h w
    have hidx2 : y * w + x < (smooth_altitudes alt w h).length := by
      rw [hsl]
      exact hidx
    rw [List.getD_eq_getElem _ _ hidx2]
    simp only [smooth_altitudes, List.getElem_mapIdx]
    have hcond : y * w + x < h * w := by
      rw [← hcomm, ← hlen]
      exact hidx
    rw [if_pos hcond]
    have hw : 0 < w := by omega
    have hmod : (y * w + x) % w = x := by
      rw [Nat.add_comm, Nat.add_mul_mod_self_right, Nat.mod_eq_of_lt hx]
    have hdiv : (y * w + x) / w = y := by
      rw [Nat.add_comm, Nat.add_mul_div_right _ _ hw, Nat.div_eq_of_lt hx]
      omega
    rw [hmod, hdiv, smoothCell]
  · intro hflat
    subst hflat
    apply List.ext_getElem
    · rw [hsl]
    · intro i h1 h2
      simp only [smooth_altitudes, List.getElem_mapIdx]
      have hi : i < w * h := by simpa using h2
      have hcomm : w * h = h * w := Nat.mul_comm w h
      rw [if_pos (by omega : i < h * w)]
      rw [List.getElem_replicate]
      have hw : 0 < w := by
        rcases Nat.eq_zero_or_pos w with h0 | h0
        · subst h0
          simp at hi
        · exact h0
      apply smoothCell_replicate
      · exact Nat.mod_lt i hw
      · rw [Nat.div_lt_iff_lt_mul hw]
        omega

/-- Witness for C8 on a 1×1 grid with value 5. -/
theorem smooth_altitudes_spec_witness :
    ([5] : List ℚ).length = 1 * 1 ∧
    ((smooth_altitudes [5] 1 1).length = 1 * 1 ∧
    (∀ x y, x < 1 → y < 1 →
      (smooth_altitudes [5] 1 1).getD (y * 1 + x) 0 =
        ((kernelOffsets.filter (inBounds 1 1 x y)).map (fun d =>
          ([5] : List ℚ).getD ((((y : Int) + d.1).toNat) * 1 +
            (((x : Int) + d.2).toNat)) 0)).sum /
        ((kernelOffsets.filter (inBounds 1 1 x y)).length : ℚ)) ∧
    (([5] : List ℚ) = List.replicate (1 * 1) 5 →
      smooth_altitudes [5] 1 1 = List.replicate (1 * 1) 5)) :=
  ⟨by norm_num, smooth_altitudes_spec [5] 1 1 5 (by norm_num)⟩

end VelorenMapgen
